import Mathlib

set_option maxHeartbeats 1000000

/-!
Verification development for the `ndx-serializable` package (`src/src/index.ts`):
the bidirectional flattening transform between the live `ndx` inverted-index
structure and its serialization-friendly flat-array form.

Modelling conventions:
- JavaScript `Map` (insertion-ordered, SameValueZero key equality) is modelled
  as a `List` of entries in insertion order; `Map.prototype.set` on an existing
  key replaces the value in place, otherwise appends.
- The pointer-linked trie (`firstChild` / `next` sibling chains, `firstPosting`
  chains) is modelled as an inductive tree whose `children` and `postings`
  lists are in linked order (the order obtained by following the links).
- JS strings are sequences of UTF-16 code units; term strings are modelled as
  `List Nat` of code units.  `String.fromCharCode` applies `ToUint16`, i.e.
  reduction modulo 2 ^ 16 = 65536, which is modelled explicitly.
- `documents.get(id)!` is a compile-time-only non-null assertion in
  TypeScript; at runtime a missing key yields `undefined`.  The
  `DocumentPointer.details` reference is therefore modelled as an `Option`.
-/

namespace NdxSerializable

/-- Document details from the external `ndx` data model: a document id plus
the per-field lengths recorded for the document. -/
structure DocumentDetails (I : Type) where
  id : I
  fieldLengths : List Nat
deriving DecidableEq, Repr

instance {I : Type} [Inhabited I] : Inhabited (DocumentDetails I) := ⟨⟨default, []⟩⟩

/-- Posting (document pointer) from the external `ndx` data model: a reference
to the details of a document (possibly `undefined` at runtime, hence `Option`)
plus the term frequency in each field. -/
structure DocumentPointer (I : Type) where
  details : Option (DocumentDetails I)
  termFrequency : List Nat
deriving DecidableEq, Repr

/-- Inverted index trie node from the external `ndx` data model.  `children`
is the sibling chain reached from `firstChild` via `next`, in linked order;
`postings` is the chain reached from `firstPosting`, in linked order. -/
inductive InvertedIndexNode (I : Type) : Type where
  | mk (charCode : Nat) (children : List (InvertedIndexNode I))
       (postings : List (DocumentPointer I))
deriving Repr

namespace InvertedIndexNode

/-- Char code stored at the node (the edge label from its parent). -/
def charCode {I : Type} : InvertedIndexNode I → Nat
  | .mk c _ _ => c

/-- Children in linked (sibling-chain) order. -/
def children {I : Type} : InvertedIndexNode I → List (InvertedIndexNode I)
  | .mk _ cs _ => cs

/-- Postings in linked order. -/
def postings {I : Type} : InvertedIndexNode I → List (DocumentPointer I)
  | .mk _ _ ps => ps

end InvertedIndexNode

/-- Live index from the external `ndx` data model: the insertion-ordered
document map (modelled as its entry list), the trie root and the field
metadata (opaque pass-through, modelled by an arbitrary type `F`). -/
structure Index (I F : Type) where
  documents : List (DocumentDetails I)
  root : InvertedIndexNode I
  fields : List F
deriving Repr

/-- Serializable index produced by `toSerializable` (flat parallel arrays). -/
structure SerializableIndex (I F : Type) where
  docIds : List I
  docFieldLengths : List (List Nat)
  terms : List (List Nat)
  postings : List (List (I × List Nat))
  fields : List F
deriving Repr

variable {I F : Type}

/-- JS `Map.prototype.get` on the insertion-ordered entry list keyed by
`DocumentDetails.id`. -/
def mapGet [DecidableEq I] (m : List (DocumentDetails I)) (i : I) :
    Option (DocumentDetails I) :=
  m.find? (fun d => d.id = i)

/-- JS `Map.prototype.set` keyed by `DocumentDetails.id`: replace in place if
the key is present (keeping its original position), append otherwise. -/
def mapSet [DecidableEq I] (m : List (DocumentDetails I)) (d : DocumentDetails I) :
    List (DocumentDetails I) :=
  if m.any (fun e => e.id = d.id) then
    m.map (fun e => if e.id = d.id then d else e)
  else
    m ++ [d]

/-- Runtime value of `posting.details.id` (the document id reached through the
details reference; well-formed indexes always have the reference present). -/
def detailsId [Inhabited I] (p : DocumentPointer I) : I :=
  (p.details.map DocumentDetails.id).iget

/-- Entry pushed for one posting by `flattenInvertedIndex`
(`[posting.details.id, posting.termFrequency]` at src/src/index.ts:298). -/
def postingEntry [Inhabited I] (p : DocumentPointer I) : I × List Nat :=
  (detailsId p, p.termFrequency)

/-- UTF-16 code-unit reduction performed by `String.fromCharCode`
(src/src/index.ts:295): every char code is taken modulo 2 ^ 16. -/
def toCharCodes (t : List Nat) : List Nat :=
  t.map (fun c => c % 65536)

mutual
/-- Shallow embedding of `flattenInvertedIndex` (src/src/index.ts:284-312).
The two mutated output arrays `terms` / `postings` are threaded through as the
accumulator pair `acc`; `term` is the path buffer of (untruncated) char codes
accumulated from the root, excluding the root itself and the current node. -/
def flattenInvertedIndex [Inhabited I] (node : InvertedIndexNode I)
    (term : List Nat) (acc : List (List Nat) × List (List (I × List Nat))) :
    List (List Nat) × List (List (I × List Nat)) :=
  match node with
  | .mk c cs ps =>
    -- term = term.slice(); term.push(node.charCode)
    let term := term ++ [c]
    -- if the node has postings: push the term string and the reversed
    -- posting-chain projection
    let acc :=
      match ps with
      | [] => acc
      | _ :: _ => (acc.1 ++ [toCharCodes term],
                   acc.2 ++ [(ps.map postingEntry).reverse])
    flattenChildList cs term acc

/-- The do-while loop over the sibling chain in `flattenInvertedIndex`
(src/src/index.ts:305-311): flatten each child left to right. -/
def flattenChildList [Inhabited I] (cs : List (InvertedIndexNode I))
    (term : List Nat) (acc : List (List Nat) × List (List (I × List Nat))) :
    List (List Nat) × List (List (I × List Nat)) :=
  match cs with
  | [] => acc
  | n :: ns => flattenChildList ns term (flattenInvertedIndex n term acc)
end

/-- Shallow embedding of `toSerializable` (src/src/index.ts:252-282). -/
def toSerializable [DecidableEq I] [Inhabited I] (index : Index I F) :
    SerializableIndex I F :=
  let docIds := index.documents.map DocumentDetails.id
  let docFieldLengths := index.documents.map DocumentDetails.fieldLengths
  -- ignore root node; flatten its children, then reverse both arrays
  let tp :=
    match index.root.children with
    | [] => ([], [])
    | cs => let acc := flattenChildList cs [] ([], [])
            (acc.1.reverse, acc.2.reverse)
  { docIds := docIds
    docFieldLengths := docFieldLengths
    terms := tp.1
    postings := tp.2
    fields := index.fields }

/-- Modelled from the external `ndx` collaborator: `createInvertedIndexNode`
creates a fresh node with no children and no postings. -/
def createInvertedIndexNode (c : Nat) : InvertedIndexNode I :=
  .mk c [] []

/-- Modelled from the external `ndx` collaborator: `addInvertedIndexChildNode`
links the new child in front of the sibling chain
(`child.next = parent.firstChild; parent.firstChild = child`), so the linked
children list gains the new node at its head. -/
def addInvertedIndexChildNode (parent child : InvertedIndexNode I) :
    InvertedIndexNode I :=
  .mk parent.charCode (child :: parent.children) parent.postings

/-- Modelled from the external `ndx` collaborator: `addInvertedIndexPosting`
links the new posting in front of the posting chain, so the linked postings
list gains the new pointer at its head. -/
def addInvertedIndexPosting (node : InvertedIndexNode I)
    (p : DocumentPointer I) : InvertedIndexNode I :=
  .mk node.charCode node.children (p :: node.postings)

/-- Modelled from the external `ndx` collaborator:
`findInvertedIndexChildNodeByCharCode` walks the sibling chain and returns the
first child whose char code matches. -/
def findInvertedIndexChildNodeByCharCode (node : InvertedIndexNode I)
    (c : Nat) : Option (InvertedIndexNode I) :=
  node.children.find? (fun w => w.charCode = c)

/-- Functional rendering of descending into the first matching child: the
first child of the sibling chain whose char code is `c` is replaced by the
result of updating it (the TypeScript code mutates that child in place through
the reference returned by `findInvertedIndexChildNodeByCharCode`). -/
def updateFirstChild (cs : List (InvertedIndexNode I)) (c : Nat)
    (f : InvertedIndexNode I → InvertedIndexNode I) :
    List (InvertedIndexNode I) :=
  match cs with
  | [] => []
  | n :: ns => if n.charCode = c then f n :: ns else n :: updateFirstChild ns c f

/-- The posting loop of `fromSerializable` (src/src/index.ts:349-360): each
pair of `postings[i]` is turned into a pointer whose `details` is
`documents.get(p[0])` (the `!` assertion is erased at runtime, so a missing
key yields an undefined reference, modelled by `none`) and added with
`addInvertedIndexPosting`. -/
def addSerializedPostings [DecidableEq I] (documents : List (DocumentDetails I))
    (node : InvertedIndexNode I) (ps : List (I × List Nat)) :
    InvertedIndexNode I :=
  ps.foldl (fun n p => addInvertedIndexPosting n ⟨mapGet documents p.1, p.2⟩) node

/-- Shallow embedding of `createInvertedIndexNodes` (src/src/index.ts:374-385)
fused with the posting loop that runs at the returned leaf: a fresh chain of
nodes for the remaining char codes `c :: rest`, with the postings of the term
attached at the leaf.  `addInvertedIndexChildNode` on a fresh node makes the
new node the only child, so the created chain is a single path. -/
def createInvertedIndexNodes [DecidableEq I] (documents : List (DocumentDetails I))
    (c : Nat) (rest : List Nat) (ps : List (I × List Nat)) :
    InvertedIndexNode I :=
  match rest with
  | [] => addSerializedPostings documents (createInvertedIndexNode c) ps
  | c2 :: rest2 =>
      addInvertedIndexChildNode (createInvertedIndexNode c)
        (createInvertedIndexNodes documents c2 rest2 ps)

/-- One iteration of the terms loop of `fromSerializable`
(src/src/index.ts:330-361): walk down from `node` consuming `term` one char
code at a time, descending into the first matching child when one exists and
creating the remaining chain with `createInvertedIndexNodes` otherwise; the
postings of the term are attached at the terminal node.  (The source's
`node.firstChild === null` fast path coincides with the failing
`findInvertedIndexChildNodeByCharCode` on an empty sibling chain.) -/
def addTermPostings [DecidableEq I] (documents : List (DocumentDetails I))
    (node : InvertedIndexNode I) (term : List Nat) (ps : List (I × List Nat)) :
    InvertedIndexNode I :=
  match term with
  | [] => addSerializedPostings documents node ps
  | c :: rest =>
    match findInvertedIndexChildNodeByCharCode node c with
    | some _ =>
        .mk node.charCode
          (updateFirstChild node.children c
            (fun w => addTermPostings documents w rest ps))
          node.postings
    | none =>
        addInvertedIndexChildNode node
          (createInvertedIndexNodes documents c rest ps)

/-- Shallow embedding of `fromSerializable` (src/src/index.ts:320-363): build
the document map first, then rebuild the trie by replaying every
`(terms[i], postings[i])` pair in array order from a fresh root with sentinel
char code zero, then copy the field metadata verbatim. -/
def fromSerializable [DecidableEq I] (t : SerializableIndex I F) : Index I F :=
  let documents :=
    (t.docIds.zip t.docFieldLengths).foldl
      (fun m p => mapSet m ⟨p.1, p.2⟩) []
  let root :=
    (t.terms.zip t.postings).foldl
      (fun r e => addTermPostings documents r e.1 e.2)
      (createInvertedIndexNode 0)
  { documents := documents, root := root, fields := t.fields }

mutual
/-- Canonical walk, written from the specification's words (spec.md §4.1):
a pre-order, sibling-order-preserving depth-first walk that, at every node
carrying at least one posting, emits the concatenation of the char codes from
the root (excluded) down to the node (included) paired with the node's posting
list in linked order, the node's own entry coming before those of its
descendants and each child subtree being fully walked before the next
sibling. -/
def preorderNode [Inhabited I] (node : InvertedIndexNode I) (pre : List Nat) :
    List (List Nat × List (I × List Nat)) :=
  match node with
  | .mk c cs ps =>
    let path := pre ++ [c]
    (match ps with
     | [] => []
     | _ :: _ => [(path, ps.map postingEntry)]) ++ preorderForest cs path

/-- Walk of a sibling list for `preorderNode`, left to right. -/
def preorderForest [Inhabited I] (cs : List (InvertedIndexNode I))
    (pre : List Nat) : List (List Nat × List (I × List Nat)) :=
  match cs with
  | [] => []
  | n :: ns => preorderNode n pre ++ preorderForest ns pre
end

/-- Coherence of one posting with the document map `D`: its details reference
is present and is exactly the entry stored in `D` under its own id. -/
def postingOk [DecidableEq I] (D : List (DocumentDetails I))
    (p : DocumentPointer I) : Bool :=
  match p.details with
  | some d => decide (mapGet D d.id = some d)
  | none => false

mutual
/-- Well-formedness of a non-root trie node, the invariants the external
index's construction API guarantees (spec.md §3, §4.1): char codes are valid
UTF-16 code units, sibling char codes are distinct, childless nodes carry at
least one posting (a term was inserted there), and every posting is coherent
with the document map. -/
def wfNodeB [DecidableEq I] (D : List (DocumentDetails I)) :
    InvertedIndexNode I → Bool
  | .mk c cs ps =>
    decide (c < 65536) &&
    decide ((cs.map InvertedIndexNode.charCode).Nodup) &&
    (!cs.isEmpty || !ps.isEmpty) &&
    ps.all (postingOk D) &&
    wfForestB D cs

/-- Well-formedness of a sibling list: every node in it is well formed. -/
def wfForestB [DecidableEq I] (D : List (DocumentDetails I)) :
    List (InvertedIndexNode I) → Bool
  | [] => true
  | n :: ns => wfNodeB D n && wfForestB D ns
end

/-- Well-formedness of a live index, the invariants the external index's
construction API guarantees: the root is the sentinel node (char code zero, no
postings), its children form a well-formed forest with distinct char codes,
and the document map has distinct keys. -/
def wfIndexB [DecidableEq I] (index : Index I F) : Bool :=
  decide (index.root.charCode = 0) &&
  index.root.postings.isEmpty &&
  decide ((index.documents.map DocumentDetails.id).Nodup) &&
  decide ((index.root.children.map InvertedIndexNode.charCode).Nodup) &&
  wfForestB index.documents index.root.children

/-- Walk from a node down along a char-code path, descending into the first
child matching each code; `some` is the node reached at the end of the path. -/
def findNode (node : InvertedIndexNode I) : List Nat → Option (InvertedIndexNode I)
  | [] => some node
  | c :: rest =>
    match node.children.find? (fun w => w.charCode = c) with
    | some w => findNode w rest
    | none => none

mutual
/-- Number of trie nodes in a subtree that carry at least one posting
(spec.md §8, the no-spurious-terms property). -/
def countPostingNodes : InvertedIndexNode I → Nat
  | .mk _ cs ps => (match ps with | [] => 0 | _ :: _ => 1) + countPostingForest cs

/-- Number of posting-carrying nodes in a sibling list. -/
def countPostingForest : List (InvertedIndexNode I) → Nat
  | [] => 0
  | n :: ns => countPostingNodes n + countPostingForest ns
end

/-- Statement abbreviation: replaying, at a node `u`, the reversed emitted
block of the well-formed subtree `n` (whose root char code is fresh among the
children of `u`) links exactly `n` at the front of the sibling list of `u`. -/
def SubtreeRebuilds [DecidableEq I] [Inhabited I] (D : List (DocumentDetails I))
    (n : InvertedIndexNode I) : Prop :=
  wfNodeB D n = true →
    ∀ u : InvertedIndexNode I, (∀ w ∈ u.children, w.charCode ≠ n.charCode) →
      List.foldl (fun r e => addTermPostings D r e.1 e.2) u
          (((preorderNode n []).map (fun e => (e.1, e.2.reverse))).reverse) =
        .mk u.charCode (n :: u.children) u.postings

/-- Statement abbreviation: replaying, at a node `u`, the reversed emitted
blocks of a well-formed sibling list with distinct char codes, all fresh among
the children of `u`, links exactly that sibling list in front of the children
of `u`. -/
def ForestRebuilds [DecidableEq I] [Inhabited I] (D : List (DocumentDetails I))
    (cs : List (InvertedIndexNode I)) : Prop :=
  wfForestB D cs = true → (cs.map InvertedIndexNode.charCode).Nodup →
    ∀ u : InvertedIndexNode I,
      (∀ w ∈ u.children, ∀ k ∈ cs, w.charCode ≠ k.charCode) →
      List.foldl (fun r e => addTermPostings D r e.1 e.2) u
          (((preorderForest cs []).map (fun e => (e.1, e.2.reverse))).reverse) =
        .mk u.charCode (cs ++ u.children) u.postings

/-- Concrete document details used by the example indexes below. -/
def exDoc : DocumentDetails Nat := ⟨1, [1]⟩

/-- Concrete live index with one document and terms `[97]` and `[97, 98]`
(nodes `a` and `a → b`, each carrying one posting). -/
def exIdx : Index Nat Nat :=
  { documents := [exDoc]
    root := .mk 0
      [.mk 97
        [.mk 98 [] [⟨some exDoc, [2]⟩]]
        [⟨some exDoc, [1]⟩]]
      []
    fields := [7] }

/-- Concrete live index whose single term is the one-code path `[0]`: a
non-root node may legitimately carry char code zero (e.g. after indexing a
term containing the NUL character). -/
def exIdxZero : Index Nat Nat :=
  { documents := [exDoc]
    root := .mk 0 [.mk 0 [] [⟨some exDoc, [1]⟩]] []
    fields := [] }

/-! Theorems.  Basic simp lemmas for the node accessors first. -/

@[simp] theorem InvertedIndexNode.charCode_mk (c : Nat)
    (cs : List (InvertedIndexNode I)) (ps : List (DocumentPointer I)) :
    (InvertedIndexNode.mk c cs ps).charCode = c := rfl

@[simp] theorem InvertedIndexNode.children_mk (c : Nat)
    (cs : List (InvertedIndexNode I)) (ps : List (DocumentPointer I)) :
    (InvertedIndexNode.mk c cs ps).children = cs := rfl

@[simp] theorem InvertedIndexNode.postings_mk (c : Nat)
    (cs : List (InvertedIndexNode I)) (ps : List (DocumentPointer I)) :
    (InvertedIndexNode.mk c cs ps).postings = ps := rfl

theorem InvertedIndexNode.eta (n : InvertedIndexNode I) :
    InvertedIndexNode.mk n.charCode n.children n.postings = n := by
  cases n; rfl

/-! Bridge between the accumulator-passing flattener of the source and the
compositional canonical pre-order walk of the specification. -/

@[simp] theorem preorderForest_nil [Inhabited I] (pre : List Nat) :
    preorderForest ([] : List (InvertedIndexNode I)) pre = [] := by
  simp [preorderForest]

theorem preorderForest_cons [Inhabited I] (n : InvertedIndexNode I)
    (ns : List (InvertedIndexNode I)) (pre : List Nat) :
    preorderForest (n :: ns) pre = preorderNode n pre ++ preorderForest ns pre := by
  simp [preorderForest]

mutual
/-- The flattener pushes, onto whatever is already in the two accumulator
arrays, exactly the entries of the canonical pre-order walk: the term strings
are the UTF-16-truncated walk paths in walk order, and each posting array is
the reverse of the walk's linked-order posting list. -/
theorem flattenInvertedIndex_eq [Inhabited I] (n : InvertedIndexNode I)
    (term : List Nat) (acc : List (List Nat) × List (List (I × List Nat))) :
    flattenInvertedIndex n term acc =
      (acc.1 ++ (preorderNode n term).map (fun e => toCharCodes e.1),
       acc.2 ++ (preorderNode n term).map (fun e => e.2.reverse)) := by
  cases n with
  | mk c cs ps =>
    cases ps with
    | nil =>
        rw [flattenInvertedIndex, flattenChildList_eq]
        simp [preorderNode]
    | cons p ps' =>
        rw [flattenInvertedIndex, flattenChildList_eq]
        simp [preorderNode]

/-- Data of `flattenInvertedIndex_eq` for the loop over a sibling chain. -/
theorem flattenChildList_eq [Inhabited I] (cs : List (InvertedIndexNode I))
    (term : List Nat) (acc : List (List Nat) × List (List (I × List Nat))) :
    flattenChildList cs term acc =
      (acc.1 ++ (preorderForest cs term).map (fun e => toCharCodes e.1),
       acc.2 ++ (preorderForest cs term).map (fun e => e.2.reverse)) := by
  cases cs with
  | nil => simp [flattenChildList, preorderForest]
  | cons n ns =>
      rw [flattenChildList, flattenInvertedIndex_eq, flattenChildList_eq]
      simp [preorderForest]
end

/-- The flat arrays produced by `toSerializable`: the term array is the
reversed list of truncated pre-order walk paths, and the postings array is the
reversed list of per-node posting arrays, each itself reversed from linked
order. -/
theorem toSerializable_terms_postings [DecidableEq I] [Inhabited I]
    (index : Index I F) :
    (toSerializable index).terms =
        ((preorderForest index.root.children []).map
          (fun e => toCharCodes e.1)).reverse ∧
      (toSerializable index).postings =
        ((preorderForest index.root.children []).map
          (fun e => e.2.reverse)).reverse := by
  unfold toSerializable
  cases h : index.root.children with
  | nil => simp
  | cons n ns => simp [flattenChildList_eq]

@[simp] theorem toSerializable_docIds [DecidableEq I] [Inhabited I]
    (index : Index I F) :
    (toSerializable index).docIds = index.documents.map DocumentDetails.id := rfl

@[simp] theorem toSerializable_docFieldLengths [DecidableEq I] [Inhabited I]
    (index : Index I F) :
    (toSerializable index).docFieldLengths =
      index.documents.map DocumentDetails.fieldLengths := rfl

@[simp] theorem toSerializable_fields [DecidableEq I] [Inhabited I]
    (index : Index I F) :
    (toSerializable index).fields = index.fields := rfl

/-! Well-formedness unfolding lemmas. -/

theorem postingOk_iff [DecidableEq I] (D : List (DocumentDetails I))
    (p : DocumentPointer I) :
    postingOk D p = true ↔
      ∃ d, p.details = some d ∧ mapGet D d.id = some d := by
  cases hp : p.details with
  | none => simp [postingOk, hp]
  | some d => simp [postingOk, hp]

@[simp] theorem wfForestB_nil [DecidableEq I] (D : List (DocumentDetails I)) :
    wfForestB D ([] : List (InvertedIndexNode I)) = true := by
  rw [wfForestB]

theorem wfForestB_cons [DecidableEq I] (D : List (DocumentDetails I))
    (n : InvertedIndexNode I) (ns : List (InvertedIndexNode I)) :
    wfForestB D (n :: ns) = (wfNodeB D n && wfForestB D ns) := by
  rw [wfForestB]

theorem wfNodeB_iff [DecidableEq I] (D : List (DocumentDetails I)) (c : Nat)
    (cs : List (InvertedIndexNode I)) (ps : List (DocumentPointer I)) :
    wfNodeB D (.mk c cs ps) = true ↔
      c < 65536 ∧ (cs.map InvertedIndexNode.charCode).Nodup ∧
        (cs = [] → ps ≠ []) ∧ (∀ p ∈ ps, postingOk D p = true) ∧
        wfForestB D cs = true := by
  rw [wfNodeB]
  simp only [Bool.and_eq_true, decide_eq_true_eq, List.all_eq_true,
    Bool.or_eq_true, Bool.not_eq_true', List.isEmpty_eq_false_iff_exists_mem,
    List.isEmpty_iff]
  constructor
  · rintro ⟨⟨⟨⟨h1, h2⟩, h3⟩, h4⟩, h5⟩
    refine ⟨h1, h2, ?_, h4, h5⟩
    intro hcs
    rcases h3 with ⟨x, hx⟩ | ⟨x, hx⟩
    · exact absurd (hcs ▸ hx) (List.not_mem_nil x)
    · exact List.ne_nil_of_mem hx
  · rintro ⟨h1, h2, h3, h4, h5⟩
    refine ⟨⟨⟨⟨h1, h2⟩, ?_⟩, h4⟩, h5⟩
    cases hcs : cs with
    | nil =>
        rcases List.exists_mem_of_ne_nil _ (h3 hcs) with ⟨p, hp⟩
        exact Or.inr ⟨p, hp⟩
    | cons k ks => exact Or.inl ⟨k, by simp⟩

theorem wfForestB_iff_all [DecidableEq I] (D : List (DocumentDetails I))
    (cs : List (InvertedIndexNode I)) :
    wfForestB D cs = true ↔ ∀ n ∈ cs, wfNodeB D n = true := by
  induction cs with
  | nil => simp
  | cons n ns ih => simp [wfForestB_cons, ih]

/-! Shift lemmas for the canonical walk: the path accumulator only prefixes
every emitted path. -/

mutual
theorem preorderNode_shift [Inhabited I] (n : InvertedIndexNode I)
    (pre : List Nat) :
    preorderNode n pre = (preorderNode n []).map (fun e => (pre ++ e.1, e.2)) := by
  cases n with
  | mk c cs ps =>
    cases ps with
    | nil =>
        rw [preorderNode, preorderNode]
        rw [preorderForest_shift cs (pre ++ [c]),
          preorderForest_shift cs ([] ++ [c])]
        simp [List.map_map, Function.comp_def]
    | cons p ps' =>
        rw [preorderNode, preorderNode]
        rw [preorderForest_shift cs (pre ++ [c]),
          preorderForest_shift cs ([] ++ [c])]
        simp [List.map_map, Function.comp_def]

theorem preorderForest_shift [Inhabited I] (cs : List (InvertedIndexNode I))
    (pre : List Nat) :
    preorderForest cs pre =
      (preorderForest cs []).map (fun e => (pre ++ e.1, e.2)) := by
  cases cs with
  | nil => simp
  | cons n ns =>
      rw [preorderForest_cons, preorderForest_cons,
        preorderNode_shift n pre, preorderNode_shift n ([]),
        preorderForest_shift ns pre, preorderForest_shift ns ([])]
      simp [List.map_map, Function.comp_def]
end

/-- A well-formed subtree emits at least one walk entry: its leaves carry
postings. -/
theorem preorderNode_ne_nil [DecidableEq I] [Inhabited I]
    (D : List (DocumentDetails I)) (n : InvertedIndexNode I) (pre : List Nat)
    (h : wfNodeB D n = true) : preorderNode n pre ≠ [] := by
  cases n with
  | mk c cs ps =>
    rcases (wfNodeB_iff D c cs ps).1 h with ⟨-, -, h3, -, h5⟩
    cases ps with
    | cons p ps' => rw [preorderNode]; simp
    | nil =>
        rw [preorderNode]
        cases hcs : cs with
        | nil => exact absurd rfl (h3 hcs)
        | cons k ks =>
            subst hcs
            have hk : wfNodeB D k = true :=
              (wfForestB_iff_all D (k :: ks)).1 h5 k (by simp)
            have hne := preorderNode_ne_nil D k (pre ++ [c]) hk
            simp only [preorderForest_cons, List.nil_append, ne_eq,
              List.append_eq_nil, not_and]
            intro h7
            exact absurd h7 hne
termination_by sizeOf n

/-! Rebuild-side lemmas: how `addTermPostings` transforms a node. -/

/-- Replaying the posting loop appends the reversed array of freshly created
pointers in front of the node's linked posting list. -/
theorem addSerializedPostings_eq [DecidableEq I] (D : List (DocumentDetails I))
    (n : InvertedIndexNode I) (ps : List (I × List Nat)) :
    addSerializedPostings D n ps =
      .mk n.charCode n.children
        ((ps.map (fun p => (⟨mapGet D p.1, p.2⟩ : DocumentPointer I))).reverse
          ++ n.postings) := by
  induction ps generalizing n with
  | nil => simp [addSerializedPostings, InvertedIndexNode.eta]
  | cons p ps' ih =>
      have : addSerializedPostings D n (p :: ps') =
          addSerializedPostings D
            (addInvertedIndexPosting n ⟨mapGet D p.1, p.2⟩) ps' := rfl
      rw [this, ih]
      simp [addInvertedIndexPosting]

/-- The per-term walk never changes the char code of the node it starts at. -/
theorem addTermPostings_charCode [DecidableEq I] (D : List (DocumentDetails I))
    (n : InvertedIndexNode I) (t : List Nat) (ps : List (I × List Nat)) :
    (addTermPostings D n t ps).charCode = n.charCode := by
  cases t with
  | nil => rw [addTermPostings, addSerializedPostings_eq]; rfl
  | cons c rest =>
      rw [addTermPostings]
      cases findInvertedIndexChildNodeByCharCode n c with
      | some w => rfl
      | none => rfl

/-- Creating the fresh chain for a term suffix coincides with replaying the
walk from a fresh node of the leading char code. -/
theorem createInvertedIndexNodes_eq_addTerm [DecidableEq I]
    (D : List (DocumentDetails I)) (c : Nat) (rest : List Nat)
    (ps : List (I × List Nat)) :
    createInvertedIndexNodes D c rest ps =
      addTermPostings D (createInvertedIndexNode c) rest ps := by
  cases rest with
  | nil => rfl
  | cons c2 rest2 => rfl

/-- Walk step when the leading char code matches the first child. -/
theorem addTermPostings_cons_found [DecidableEq I] (D : List (DocumentDetails I))
    (uc : Nat) (up : List (DocumentPointer I)) (old : List (InvertedIndexNode I))
    (v : InvertedIndexNode I) (c : Nat) (rest : List Nat)
    (ps : List (I × List Nat)) (hv : v.charCode = c) :
    addTermPostings D (.mk uc (v :: old) up) (c :: rest) ps =
      .mk uc (addTermPostings D v rest ps :: old) up := by
  rw [addTermPostings]
  have hf : findInvertedIndexChildNodeByCharCode
      (InvertedIndexNode.mk uc (v :: old) up) c = some v := by
    simp [findInvertedIndexChildNodeByCharCode, List.find?_cons_of_pos, hv]
  rw [hf]
  simp [updateFirstChild, hv]

/-- Walk step when no child matches the leading char code: the fresh chain is
linked at the front of the sibling list. -/
theorem addTermPostings_cons_notfound [DecidableEq I]
    (D : List (DocumentDetails I)) (node : InvertedIndexNode I) (c : Nat)
    (rest : List Nat) (ps : List (I × List Nat))
    (h : ∀ w ∈ node.children, w.charCode ≠ c) :
    addTermPostings D node (c :: rest) ps =
      .mk node.charCode
        (addTermPostings D (createInvertedIndexNode c) rest ps :: node.children)
        node.postings := by
  rw [addTermPostings]
  have hf : findInvertedIndexChildNodeByCharCode node c = none := by
    simp only [findInvertedIndexChildNodeByCharCode, List.find?_eq_none,
      decide_eq_true_eq]
    exact h
  rw [hf, createInvertedIndexNodes_eq_addTerm]
  rfl

/-- Replaying a block of terms that all start with the same char code `c`,
on a node whose first child carries `c`, descends entirely into that child. -/
theorem rebuild_descend_into [DecidableEq I] (D : List (DocumentDetails I))
    (c : Nat) (L : List (List Nat × List (I × List Nat))) :
    ∀ (uc : Nat) (up : List (DocumentPointer I))
      (old : List (InvertedIndexNode I)) (v : InvertedIndexNode I),
      v.charCode = c →
      List.foldl (fun r e => addTermPostings D r e.1 e.2)
          (.mk uc (v :: old) up) (L.map (fun e => (c :: e.1, e.2))) =
        .mk uc (List.foldl (fun r e => addTermPostings D r e.1 e.2) v L :: old)
          up := by
  induction L with
  | nil => intro uc up old v hv; rfl
  | cons e L' ih =>
      intro uc up old v hv
      simp only [List.map_cons, List.foldl_cons]
      rw [addTermPostings_cons_found D uc up old v c e.1 e.2 hv]
      exact ih uc up old (addTermPostings D v e.1 e.2)
        (by rw [addTermPostings_charCode]; exact hv)

/-- Replaying a nonempty block of terms that all start with the same char code
`c`, on a node with no child carrying `c`, creates the subtree for the block
and links it at the front of the sibling list. -/
theorem rebuild_descend [DecidableEq I] (D : List (DocumentDetails I))
    (c : Nat) (L : List (List Nat × List (I × List Nat)))
    (u : InvertedIndexNode I) (hL : L ≠ [])
    (hfresh : ∀ w ∈ u.children, w.charCode ≠ c) :
    List.foldl (fun r e => addTermPostings D r e.1 e.2) u
        (L.map (fun e => (c :: e.1, e.2))) =
      .mk u.charCode
        (List.foldl (fun r e => addTermPostings D r e.1 e.2)
          (createInvertedIndexNode c) L :: u.children)
        u.postings := by
  cases L with
  | nil => exact absurd rfl hL
  | cons a L' =>
      simp only [List.map_cons, List.foldl_cons]
      rw [addTermPostings_cons_notfound D u c a.1 a.2 hfresh]
      exact rebuild_descend_into D c L' u.charCode u.postings u.children
        (addTermPostings D (createInvertedIndexNode c) a.1 a.2)
        (by rw [addTermPostings_charCode]; rfl)

/-- A nonempty well-headed sibling list emits at least one walk entry. -/
theorem preorderForest_ne_nil [DecidableEq I] [Inhabited I]
    (D : List (DocumentDetails I)) (k : InvertedIndexNode I)
    (ks : List (InvertedIndexNode I)) (pre : List Nat)
    (h : wfNodeB D k = true) : preorderForest (k :: ks) pre ≠ [] := by
  rw [preorderForest_cons]
  intro hc
  exact preorderNode_ne_nil D k pre h (List.append_eq_nil.1 hc).1

/-- Replaying the emitted posting array of a node (the linked list projected
and reversed) through the pointer-creating posting loop restores exactly the
original linked posting list, provided every posting is coherent with the
document map. -/
theorem postings_restore [DecidableEq I] [Inhabited I]
    (D : List (DocumentDetails I)) (ps : List (DocumentPointer I))
    (h : ∀ p ∈ ps, postingOk D p = true) :
    (((ps.map postingEntry).reverse).map
        (fun p => (⟨mapGet D p.1, p.2⟩ : DocumentPointer I))).reverse = ps := by
  rw [← List.map_reverse, List.reverse_reverse, List.map_map]
  have : ∀ p ∈ ps,
      ((fun p => (⟨mapGet D p.1, p.2⟩ : DocumentPointer I)) ∘ postingEntry) p
        = p := by
    intro p hp
    rcases (postingOk_iff D p).1 (h p hp) with ⟨d, hd1, hd2⟩
    simp only [Function.comp_apply, postingEntry, detailsId, hd1,
      Option.map_some', Option.iget_some]
    rw [hd2, ← hd1]
  rw [List.map_congr_left this]
  simp

/-- Unfolding of the canonical walk at a node without postings. -/
theorem preorderNode_nilps [Inhabited I] (c : Nat)
    (cs : List (InvertedIndexNode I)) (pre : List Nat) :
    preorderNode (.mk c cs ([] : List (DocumentPointer I))) pre =
      preorderForest cs (pre ++ [c]) := by
  rw [preorderNode]
  simp

/-- Unfolding of the canonical walk at a node with postings. -/
theorem preorderNode_consps [Inhabited I] (c : Nat)
    (cs : List (InvertedIndexNode I)) (p : DocumentPointer I)
    (ps' : List (DocumentPointer I)) (pre : List Nat) :
    preorderNode (.mk c cs (p :: ps')) pre =
      (pre ++ [c], (p :: ps').map postingEntry) ::
        preorderForest cs (pre ++ [c]) := by
  rw [preorderNode]
  rfl

/-- Main rebuild induction: both rebuild statements hold for every structure
of bounded size.  Plain induction on the size bound; the strict structural
descent of the walk provides the bound decrease at every inner application. -/
theorem rebuild_ind [DecidableEq I] [Inhabited I]
    (D : List (DocumentDetails I)) :
    ∀ m : Nat,
      (∀ n : InvertedIndexNode I, sizeOf n ≤ m → SubtreeRebuilds D n) ∧
      (∀ cs : List (InvertedIndexNode I), sizeOf cs ≤ m → ForestRebuilds D cs) := by
  intro m
  induction m with
  | zero =>
      constructor
      · intro n hn
        exfalso
        cases n with
        | mk c cs ps => simp at hn
      · intro cs hcs
        exfalso
        cases cs with
        | nil => simp at hcs
        | cons k ks => simp at hcs
  | succ m ih =>
      obtain ⟨ihN, ihF⟩ := ih
      have hshift : ∀ (c : Nat) (k : InvertedIndexNode I)
          (ks : List (InvertedIndexNode I)), sizeOf (k :: ks) ≤ m →
          wfForestB D (k :: ks) = true →
          ((k :: ks).map InvertedIndexNode.charCode).Nodup →
          ∀ u : InvertedIndexNode I, (∀ w ∈ u.children, w.charCode ≠ c) →
          List.foldl (fun r e => addTermPostings D r e.1 e.2) u
              (((preorderForest (k :: ks) [c]).map
                (fun e => (e.1, e.2.reverse))).reverse) =
            .mk u.charCode (.mk c (k :: ks) [] :: u.children) u.postings := by
        intro c k ks hsz hwf hnd u hfresh
        rw [preorderForest_shift (k :: ks) [c]]
        have hkey : ((((preorderForest (k :: ks) []).map
              (fun e => ([c] ++ e.1, e.2))).map
                (fun e => (e.1, e.2.reverse))).reverse) =
            (((preorderForest (k :: ks) []).map
              (fun e => (e.1, e.2.reverse))).reverse).map
                (fun e => (c :: e.1, e.2)) := by
          simp [List.map_map, Function.comp_def, List.map_reverse]
        rw [hkey]
        have hk : wfNodeB D k = true :=
          (wfForestB_iff_all D (k :: ks)).1 hwf k (List.mem_cons_self k ks)
        have hL : ((preorderForest (k :: ks) []).map
            (fun e => (e.1, e.2.reverse))).reverse ≠ [] := by
          intro hc
          rw [List.reverse_eq_nil_iff, List.map_eq_nil_iff] at hc
          exact preorderForest_ne_nil D k ks [] hk hc
        rw [rebuild_descend D c _ u hL hfresh]
        rw [ihF (k :: ks) hsz hwf hnd (createInvertedIndexNode c)
          (by intro w hw; simp [createInvertedIndexNode] at hw)]
        simp [createInvertedIndexNode]
      constructor
      · intro n hsz hwf u hfresh
        cases n with
        | mk c cs ps =>
          have hps1 : 1 ≤ sizeOf ps := by
            cases ps with
            | nil => simp
            | cons p q => simp; omega
          have hszcs : sizeOf cs ≤ m := by
            simp only [InvertedIndexNode.mk.sizeOf_spec] at hsz
            omega
          rcases (wfNodeB_iff D c cs ps).1 hwf with ⟨-, h2, h3, h4, h5⟩
          simp only [InvertedIndexNode.charCode_mk] at hfresh
          cases ps with
          | nil =>
              rw [preorderNode_nilps]
              simp only [List.nil_append]
              cases cs with
              | nil => exact absurd rfl (h3 rfl)
              | cons k ks => exact hshift c k ks hszcs h5 h2 u hfresh
          | cons p ps' =>
              have hsel : ((preorderNode (InvertedIndexNode.mk c cs (p :: ps'))
                  []).map (fun e => (e.1, e.2.reverse))).reverse =
                    (((preorderForest cs [c]).map
                      (fun e => (e.1, e.2.reverse))).reverse) ++
                    [([c], ((p :: ps').map postingEntry).reverse)] := by
                rw [preorderNode_consps]
                simp [List.reverse_cons]
              rw [hsel, List.foldl_append]
              have hrestore : addTermPostings D (createInvertedIndexNode c) []
                  (((p :: ps').map postingEntry).reverse) =
                    .mk c [] (p :: ps') := by
                rw [addTermPostings, addSerializedPostings_eq,
                  postings_restore D _ h4]
                simp [createInvertedIndexNode]
              cases cs with
              | nil =>
                  simp only [preorderForest_nil, List.map_nil, List.reverse_nil,
                    List.foldl_nil, List.foldl_cons]
                  rw [addTermPostings_cons_notfound D u c []
                    (((p :: ps').map postingEntry).reverse) hfresh]
                  rw [hrestore]
              | cons k ks =>
                  rw [hshift c k ks hszcs h5 h2 u hfresh]
                  simp only [List.foldl_cons, List.foldl_nil]
                  rw [addTermPostings_cons_found D u.charCode u.postings
                    u.children (.mk c (k :: ks) []) c []
                    (((p :: ps').map postingEntry).reverse) rfl]
                  have hrestore2 : addTermPostings D (.mk c (k :: ks) []) []
                      (((p :: ps').map postingEntry).reverse) =
                        .mk c (k :: ks) (p :: ps') := by
                    rw [addTermPostings, addSerializedPostings_eq,
                      postings_restore D _ h4]
                    simp
                  rw [hrestore2]
      · intro cs hsz hwf hnd u hfresh
        cases cs with
        | nil =>
            simp only [preorderForest_nil, List.map_nil, List.reverse_nil,
              List.foldl_nil, List.nil_append]
            rw [InvertedIndexNode.eta]
        | cons k ks =>
            have hk1 : 1 ≤ sizeOf k := by
              cases k with
              | mk c cs2 ps2 => simp; omega
            have hks1 : 1 ≤ sizeOf ks := by
              cases ks with
              | nil => simp
              | cons a b => simp; omega
            have hszk : sizeOf k ≤ m := by
              simp only [List.cons.sizeOf_spec] at hsz
              omega
            have hszks : sizeOf ks ≤ m := by
              simp only [List.cons.sizeOf_spec] at hsz
              omega
            rw [preorderForest_cons]
            simp only [List.map_append, List.reverse_append]
            rw [List.foldl_append]
            rw [wfForestB_cons, Bool.and_eq_true] at hwf
            rw [List.map_cons, List.nodup_cons] at hnd
            rw [ihF ks hszks hwf.2 hnd.2 u
              (fun w hw k' hk' => hfresh w hw k' (List.mem_cons_of_mem k hk'))]
            have hfresh2 : ∀ w ∈ (InvertedIndexNode.mk u.charCode
                (ks ++ u.children) u.postings).children,
                w.charCode ≠ k.charCode := by
              intro w hw
              rcases List.mem_append.1 hw with hwks | hwu
              · intro hbad
                exact hnd.1
                  (hbad ▸ List.mem_map_of_mem InvertedIndexNode.charCode hwks)
              · exact hfresh w hwu k (List.mem_cons_self k ks)
            rw [ihN k hszk hwf.1 _ hfresh2]
            simp

/-- Rebuild statement for a single well-formed subtree (wrapper around the
size induction). -/
theorem rebuild_subtree [DecidableEq I] [Inhabited I]
    (D : List (DocumentDetails I)) (n : InvertedIndexNode I) :
    SubtreeRebuilds D n :=
  (rebuild_ind D (sizeOf n)).1 n le_rfl

/-- Rebuild statement for a well-formed sibling list (wrapper around the size
induction). -/
theorem rebuild_forest [DecidableEq I] [Inhabited I]
    (D : List (DocumentDetails I)) (cs : List (InvertedIndexNode I)) :
    ForestRebuilds D cs :=
  (rebuild_ind D (sizeOf cs)).2 cs le_rfl

/-- JS `Map.set` with a key not yet present appends the entry. -/
theorem mapSet_fresh [DecidableEq I] (m : List (DocumentDetails I))
    (d : DocumentDetails I) (h : ∀ e ∈ m, e.id ≠ d.id) :
    mapSet m d = m ++ [d] := by
  rw [mapSet, if_neg]
  simp only [List.any_eq_true, decide_eq_true_eq, not_exists, not_and]
  exact h

/-- Inserting a list of documents with pairwise-distinct ids, all fresh for
the accumulator, appends them in order. -/
theorem docs_fold [DecidableEq I] :
    ∀ (docs acc : List (DocumentDetails I)),
      (docs.map DocumentDetails.id).Nodup →
      (∀ e ∈ docs, ∀ a ∈ acc, a.id ≠ e.id) →
      List.foldl mapSet acc docs = acc ++ docs := by
  intro docs
  induction docs with
  | nil => intro acc _ _; simp
  | cons d ds ih =>
      intro acc hnd hfresh
      rw [List.map_cons, List.nodup_cons] at hnd
      rw [List.foldl_cons, mapSet_fresh acc d
        (fun e he => hfresh d (List.mem_cons_self d ds) e he)]
      rw [ih (acc ++ [d]) hnd.2 ?_]
      · simp
      · intro e he a ha
        rcases List.mem_append.1 ha with hacc | hd
        · exact hfresh e (List.mem_cons_of_mem d he) a hacc
        · rw [List.mem_singleton.1 hd]
          intro hbad
          exact hnd.1 (hbad ▸ List.mem_map_of_mem DocumentDetails.id he)

/-- Rebuilding the document map from the flattened id / field-length arrays of
a duplicate-free document list restores exactly that list. -/
theorem rebuild_documents [DecidableEq I] (docs : List (DocumentDetails I))
    (h : (docs.map DocumentDetails.id).Nodup) :
    List.foldl (fun m p => mapSet m ⟨p.1, p.2⟩)
        ([] : List (DocumentDetails I))
        ((docs.map DocumentDetails.id).zip
          (docs.map DocumentDetails.fieldLengths)) = docs := by
  rw [List.zip_map']
  rw [List.foldl_map]
  have hfun : List.foldl
      (fun (m : List (DocumentDetails I)) (a : DocumentDetails I) =>
        mapSet m ⟨(a.id, a.fieldLengths).1, (a.id, a.fieldLengths).2⟩) [] docs =
      List.foldl mapSet [] docs := rfl
  rw [hfun, docs_fold docs [] h (by intro e _ a ha; cases ha)]
  simp

/-- In a well-formed trie every code on every emitted walk path is a valid
UTF-16 code unit, provided the path accumulator only holds valid units
(size-bound induction over the nested tree structure). -/
theorem preorder_codes_lt_ind [DecidableEq I] [Inhabited I]
    (D : List (DocumentDetails I)) :
    ∀ m : Nat,
      (∀ n : InvertedIndexNode I, sizeOf n ≤ m → wfNodeB D n = true →
        ∀ pre : List Nat, (∀ x ∈ pre, x < 65536) →
          ∀ e ∈ preorderNode n pre, ∀ x ∈ e.1, x < 65536) ∧
      (∀ cs : List (InvertedIndexNode I), sizeOf cs ≤ m →
        wfForestB D cs = true →
        ∀ pre : List Nat, (∀ x ∈ pre, x < 65536) →
          ∀ e ∈ preorderForest cs pre, ∀ x ∈ e.1, x < 65536) := by
  intro m
  induction m with
  | zero =>
      constructor
      · intro n hn
        exfalso
        cases n with
        | mk c cs ps => simp at hn
      · intro cs hcs
        exfalso
        cases cs with
        | nil => simp at hcs
        | cons k ks => simp at hcs
  | succ m ih =>
      obtain ⟨ihN, ihF⟩ := ih
      constructor
      · intro n hsz hwf pre hpre e he x hx
        cases n with
        | mk c cs ps =>
          have hps1 : 1 ≤ sizeOf ps := by
            cases ps with
            | nil => simp
            | cons p q => simp; omega
          have hszcs : sizeOf cs ≤ m := by
            simp only [InvertedIndexNode.mk.sizeOf_spec] at hsz
            omega
          rcases (wfNodeB_iff D c cs ps).1 hwf with ⟨h1, -, -, -, h5⟩
          have hpath : ∀ y ∈ pre ++ [c], y < 65536 := by
            intro y hy
            rcases List.mem_append.1 hy with hy1 | hy2
            · exact hpre y hy1
            · rw [List.mem_singleton.1 hy2]; exact h1
          cases ps with
          | nil =>
              rw [preorderNode_nilps] at he
              exact ihF cs hszcs h5 (pre ++ [c]) hpath e he x hx
          | cons p ps' =>
              rw [preorderNode_consps] at he
              rcases List.mem_cons.1 he with hself | hrest
              · rw [hself] at hx
                exact hpath x hx
              · exact ihF cs hszcs h5 (pre ++ [c]) hpath e hrest x hx
      · intro cs hsz hwf pre hpre e he x hx
        cases cs with
        | nil => simp at he
        | cons k ks =>
            have hk1 : 1 ≤ sizeOf k := by
              cases k with
              | mk c cs2 ps2 => simp; omega
            have hks1 : 1 ≤ sizeOf ks := by
              cases ks with
              | nil => simp
              | cons a b => simp; omega
            have hszk : sizeOf k ≤ m := by
              simp only [List.cons.sizeOf_spec] at hsz
              omega
            have hszks : sizeOf ks ≤ m := by
              simp only [List.cons.sizeOf_spec] at hsz
              omega
            rw [wfForestB_cons, Bool.and_eq_true] at hwf
            rw [preorderForest_cons] at he
            rcases List.mem_append.1 he with hek | heks
            · exact ihN k hszk hwf.1 pre hpre e hek x hx
            · exact ihF ks hszks hwf.2 pre hpre e heks x hx

/-- Truncation is the identity on valid UTF-16 code units. -/
theorem toCharCodes_eq_self (t : List Nat) (h : ∀ x ∈ t, x < 65536) :
    toCharCodes t = t := by
  rw [toCharCodes, List.map_congr_left (fun x hx => Nat.mod_eq_of_lt (h x hx))]
  simp

/-- Unfolding of the index well-formedness invariant. -/
theorem wfIndexB_iff [DecidableEq I] (index : Index I F) :
    wfIndexB index = true ↔
      index.root.charCode = 0 ∧ index.root.postings = [] ∧
        (index.documents.map DocumentDetails.id).Nodup ∧
        (index.root.children.map InvertedIndexNode.charCode).Nodup ∧
        wfForestB index.documents index.root.children = true := by
  rw [wfIndexB]
  simp only [Bool.and_eq_true, decide_eq_true_eq, List.isEmpty_iff]
  constructor
  · rintro ⟨⟨⟨⟨h1, h2⟩, h3⟩, h4⟩, h5⟩
    exact ⟨h1, h2, h3, h4, h5⟩
  · rintro ⟨h1, h2, h3, h4, h5⟩
    exact ⟨⟨⟨⟨h1, h2⟩, h3⟩, h4⟩, h5⟩

/-- Claim C1: for every well-formed live index (root is the sentinel node,
sibling char codes distinct, childless non-root nodes carry postings, postings
coherent with the duplicate-free document map — the invariants guaranteed by
the external index's construction API), rebuilding the flattened form yields a
deep-structurally equal index: same document map contents, same trie shape,
same sibling and posting linkage order, same term frequencies, same field
metadata. -/
theorem fromSerializable_toSerializable_id [DecidableEq I] [Inhabited I]
    (idx : Index I F) (h : wfIndexB idx = true) :
    fromSerializable (toSerializable idx) = idx := by
  rcases (wfIndexB_iff idx).1 h with ⟨hrc, hrp, hdn, hcn, hcf⟩
  have hdocs : (fromSerializable (toSerializable idx)).documents =
      idx.documents := by
    show List.foldl (fun m p => mapSet m ⟨p.1, p.2⟩) []
        ((toSerializable idx).docIds.zip
          (toSerializable idx).docFieldLengths) = idx.documents
    rw [toSerializable_docIds, toSerializable_docFieldLengths]
    exact rebuild_documents idx.documents hdn
  have hcodes : ∀ e ∈ preorderForest idx.root.children [],
      toCharCodes e.1 = e.1 := by
    intro e he
    exact toCharCodes_eq_self e.1
      ((preorder_codes_lt_ind idx.documents (sizeOf idx.root.children)).2
        idx.root.children le_rfl hcf [] (by intro x hx; cases hx) e he)
  have hzip : (toSerializable idx).terms.zip (toSerializable idx).postings =
      ((preorderForest idx.root.children []).map
        (fun e => (e.1, e.2.reverse))).reverse := by
    obtain ⟨ht, hp⟩ := toSerializable_terms_postings idx
    rw [ht, hp]
    have hmapt : (preorderForest idx.root.children []).map
        (fun e => toCharCodes e.1) =
          (preorderForest idx.root.children []).map (fun e => e.1) :=
      List.map_congr_left (fun e he => hcodes e he)
    rw [hmapt, ← List.map_reverse, ← List.map_reverse, ← List.map_reverse,
      List.zip_map']
  have hroot : (fromSerializable (toSerializable idx)).root = idx.root := by
    show List.foldl
        (fun r e => addTermPostings
          (List.foldl (fun m p => mapSet m ⟨p.1, p.2⟩) []
            ((toSerializable idx).docIds.zip
              (toSerializable idx).docFieldLengths))
          r e.1 e.2)
        (createInvertedIndexNode 0)
        ((toSerializable idx).terms.zip (toSerializable idx).postings) =
      idx.root
    have hd' : List.foldl (fun m p => mapSet m ⟨p.1, p.2⟩) []
        ((toSerializable idx).docIds.zip
          (toSerializable idx).docFieldLengths) = idx.documents := hdocs
    rw [hd', hzip]
    have hfresh0 : ∀ w ∈ (createInvertedIndexNode 0 :
        InvertedIndexNode I).children,
        ∀ k ∈ idx.root.children, w.charCode ≠ k.charCode := by
      intro w hw
      simp [createInvertedIndexNode] at hw
    rw [rebuild_forest idx.documents idx.root.children hcf hcn
      (createInvertedIndexNode 0) hfresh0]
    conv_rhs => rw [← InvertedIndexNode.eta idx.root]
    rw [hrc, hrp]
    simp [createInvertedIndexNode]
  calc fromSerializable (toSerializable idx) =
      ⟨(fromSerializable (toSerializable idx)).documents,
        (fromSerializable (toSerializable idx)).root,
        (fromSerializable (toSerializable idx)).fields⟩ := rfl
    _ = idx := by rw [hdocs, hroot]; rfl

/-- Witness for claim C1 at the concrete two-term example index. -/
theorem fromSerializable_toSerializable_id_witness :
    wfIndexB exIdx = true ∧ fromSerializable (toSerializable exIdx) = exIdx :=
  ⟨rfl, fromSerializable_toSerializable_id exIdx rfl⟩

/-- The flat arrays of a well-formed index, with truncation dropped: the zip
of `terms` and `postings` is the reversed canonical walk with each posting
array reversed from linked order. -/
theorem toSerializable_zip [DecidableEq I] [Inhabited I] (idx : Index I F)
    (h : wfIndexB idx = true) :
    (toSerializable idx).terms.zip (toSerializable idx).postings =
      ((preorderForest idx.root.children []).map
        (fun e => (e.1, e.2.reverse))).reverse := by
  rcases (wfIndexB_iff idx).1 h with ⟨-, -, -, -, hcf⟩
  have hcodes : ∀ e ∈ preorderForest idx.root.children [],
      toCharCodes e.1 = e.1 := by
    intro e he
    exact toCharCodes_eq_self e.1
      ((preorder_codes_lt_ind idx.documents (sizeOf idx.root.children)).2
        idx.root.children le_rfl hcf [] (by intro x hx; cases hx) e he)
  obtain ⟨ht, hp⟩ := toSerializable_terms_postings idx
  rw [ht, hp]
  have hmapt : (preorderForest idx.root.children []).map
      (fun e => toCharCodes e.1) =
        (preorderForest idx.root.children []).map (fun e => e.1) :=
    List.map_congr_left (fun e he => hcodes e he)
  rw [hmapt, ← List.map_reverse, ← List.map_reverse, ← List.map_reverse,
    List.zip_map']

/-- Claim C2, counterexample: on the concrete well-formed two-term index the
emitted terms array is `[[97, 98], [97]]` while the canonical pre-order,
sibling-order-preserving depth-first walk emits `[[97], [97, 98]]` (a node's
term before its descendants'): `toSerializable` does not emit in canonical
pre-order. -/
theorem toSerializable_not_preorder :
    wfIndexB exIdx = true ∧
    (toSerializable exIdx).terms = [[97, 98], [97]] ∧
    (preorderForest exIdx.root.children []).map (fun e => e.1) =
      [[97], [97, 98]] ∧
    (toSerializable exIdx).terms ≠
      (preorderForest exIdx.root.children []).map (fun e => e.1) := by
  refine ⟨rfl, rfl, rfl, ?_⟩
  decide

/-- Claim C2, amended: for every well-formed live index, the `terms` and
`postings` arrays produced by `toSerializable` are in the REVERSE of the
canonical pre-order, sibling-order-preserving depth-first walk of the trie,
and within each `postings[i]` the pairs are in the REVERSE of the node's
linked order (which is the original insertion order, since the collaborator's
posting lists are built by prepending). -/
theorem toSerializable_reverse_preorder [DecidableEq I] [Inhabited I]
    (idx : Index I F) (h : wfIndexB idx = true) :
    (toSerializable idx).terms =
        ((preorderForest idx.root.children []).map (fun e => e.1)).reverse ∧
      (toSerializable idx).postings =
        ((preorderForest idx.root.children []).map
          (fun e => e.2.reverse)).reverse := by
  rcases (wfIndexB_iff idx).1 h with ⟨-, -, -, -, hcf⟩
  have hcodes : ∀ e ∈ preorderForest idx.root.children [],
      toCharCodes e.1 = e.1 := by
    intro e he
    exact toCharCodes_eq_self e.1
      ((preorder_codes_lt_ind idx.documents (sizeOf idx.root.children)).2
        idx.root.children le_rfl hcf [] (by intro x hx; cases hx) e he)
  obtain ⟨ht, hp⟩ := toSerializable_terms_postings idx
  refine ⟨?_, hp⟩
  rw [ht]
  rw [List.map_congr_left (fun e he => hcodes e he)]

/-- Witness for the amended claim C2 at the concrete two-term index. -/
theorem toSerializable_reverse_preorder_witness :
    (toSerializable exIdx).terms =
        ((preorderForest exIdx.root.children []).map (fun e => e.1)).reverse ∧
      (toSerializable exIdx).postings =
        ((preorderForest exIdx.root.children []).map
          (fun e => e.2.reverse)).reverse :=
  toSerializable_reverse_preorder exIdx rfl

/-- Unfolding of the posting-node count at a node without postings. -/
theorem countPostingNodes_mk_nil (c : Nat) (cs : List (InvertedIndexNode I)) :
    countPostingNodes (.mk c cs ([] : List (DocumentPointer I))) =
      countPostingForest cs := by
  rw [countPostingNodes]
  simp

/-- Unfolding of the posting-node count at a node with postings. -/
theorem countPostingNodes_mk_cons (c : Nat) (cs : List (InvertedIndexNode I))
    (p : DocumentPointer I) (ps' : List (DocumentPointer I)) :
    countPostingNodes (.mk c cs (p :: ps')) = 1 + countPostingForest cs := by
  rw [countPostingNodes]

/-- Unfolding of the posting-node count over a sibling list. -/
theorem countPostingForest_cons (n : InvertedIndexNode I)
    (ns : List (InvertedIndexNode I)) :
    countPostingForest (n :: ns) =
      countPostingNodes n + countPostingForest ns := by
  rw [countPostingForest]

/-- The canonical walk emits exactly one entry per posting-carrying node
(size-bound induction). -/
theorem preorder_length_ind [Inhabited I] :
    ∀ m : Nat,
      (∀ n : InvertedIndexNode I, sizeOf n ≤ m → ∀ pre : List Nat,
        (preorderNode n pre).length = countPostingNodes n) ∧
      (∀ cs : List (InvertedIndexNode I), sizeOf cs ≤ m → ∀ pre : List Nat,
        (preorderForest cs pre).length = countPostingForest cs) := by
  intro m
  induction m with
  | zero =>
      constructor
      · intro n hn
        exfalso
        cases n with
        | mk c cs ps => simp at hn
      · intro cs hcs
        exfalso
        cases cs with
        | nil => simp at hcs
        | cons k ks => simp at hcs
  | succ m ih =>
      obtain ⟨ihN, ihF⟩ := ih
      constructor
      · intro n hsz pre
        cases n with
        | mk c cs ps =>
          have hps1 : 1 ≤ sizeOf ps := by
            cases ps with
            | nil => simp
            | cons p q => simp; omega
          have hszcs : sizeOf cs ≤ m := by
            simp only [InvertedIndexNode.mk.sizeOf_spec] at hsz
            omega
          cases ps with
          | nil =>
              rw [preorderNode_nilps, countPostingNodes_mk_nil]
              exact ihF cs hszcs (pre ++ [c])
          | cons p ps' =>
              rw [preorderNode_consps, countPostingNodes_mk_cons]
              rw [List.length_cons, ihF cs hszcs (pre ++ [c])]
              omega
      · intro cs hsz pre
        cases cs with
        | nil => simp [countPostingForest]
        | cons k ks =>
            have hk1 : 1 ≤ sizeOf k := by
              cases k with
              | mk c cs2 ps2 => simp; omega
            have hks1 : 1 ≤ sizeOf ks := by
              cases ks with
              | nil => simp
              | cons a b => simp; omega
            have hszk : sizeOf k ≤ m := by
              simp only [List.cons.sizeOf_spec] at hsz
              omega
            have hszks : sizeOf ks ≤ m := by
              simp only [List.cons.sizeOf_spec] at hsz
              omega
            rw [preorderForest_cons, countPostingForest_cons,
              List.length_append, ihN k hszk pre, ihF ks hszks pre]

/-- Claim C7: for every well-formed index, `terms` and `postings` have equal
length (they are pushed in lock step, pairing `terms[i]` 1:1 with
`postings[i]`), and the number of entries equals the number of trie nodes
carrying at least one posting — branching-only nodes contribute nothing. -/
theorem terms_one_per_posting_node [DecidableEq I] [Inhabited I]
    (idx : Index I F) (h : wfIndexB idx = true) :
    (toSerializable idx).terms.length = (toSerializable idx).postings.length ∧
      (toSerializable idx).terms.length = countPostingNodes idx.root := by
  obtain ⟨ht, hp⟩ := toSerializable_terms_postings idx
  constructor
  · rw [ht, hp]
    simp
  · rw [ht]
    simp only [List.length_reverse, List.length_map]
    rw [(preorder_length_ind (sizeOf idx.root.children)).2
      idx.root.children le_rfl []]
    rcases (wfIndexB_iff idx).1 h with ⟨-, hrp, -, -, -⟩
    conv_rhs => rw [← InvertedIndexNode.eta idx.root]
    rw [hrp, countPostingNodes_mk_nil]

/-- Witness for claim C7 at the concrete two-term index. -/
theorem terms_one_per_posting_node_witness :
    (toSerializable exIdx).terms.length =
        (toSerializable exIdx).postings.length ∧
      (toSerializable exIdx).terms.length = countPostingNodes exIdx.root :=
  terms_one_per_posting_node exIdx rfl

/-- Membership in a sibling-list walk is membership in one sibling's walk. -/
theorem preorderForest_mem [Inhabited I] (cs : List (InvertedIndexNode I))
    (pre : List Nat) (e : List Nat × List (I × List Nat)) :
    e ∈ preorderForest cs pre ↔ ∃ k ∈ cs, e ∈ preorderNode k pre := by
  induction cs with
  | nil => simp
  | cons k ks ih =>
      rw [preorderForest_cons, List.mem_append, ih]
      constructor
      · rintro (hk | ⟨k', hk', he⟩)
        · exact ⟨k, List.mem_cons_self k ks, hk⟩
        · exact ⟨k', List.mem_cons_of_mem k hk', he⟩
      · rintro ⟨k', hk', he⟩
        rcases List.mem_cons.1 hk' with h | h
        · exact Or.inl (h ▸ he)
        · exact Or.inr ⟨k', h, he⟩

/-- With pairwise-distinct sibling char codes, searching the sibling chain for
the code of a member finds exactly that member (the first match is the only
match). -/
theorem find_first_of_nodup (cs : List (InvertedIndexNode I))
    (k : InvertedIndexNode I) (hk : k ∈ cs)
    (hnd : (cs.map InvertedIndexNode.charCode).Nodup) :
    cs.find? (fun w => w.charCode = k.charCode) = some k := by
  induction cs with
  | nil => cases hk
  | cons a rest ih =>
      rw [List.map_cons, List.nodup_cons] at hnd
      rcases List.mem_cons.1 hk with h | h
      · subst h
        rw [List.find?_cons_of_pos]
        simp
      · have hne : a.charCode ≠ k.charCode := by
          intro hbad
          exact hnd.1
            (hbad ▸ List.mem_map_of_mem InvertedIndexNode.charCode h)
        rw [List.find?_cons_of_neg]
        · exact ih h hnd.2
        · simp [hne]

/-- Every entry of the walk of a well-formed subtree names, through its path,
a posting-carrying node that the walk-down search finds: the emitted entry is
the pair of the node's path and its linked posting projection (size-bound
induction; the sibling statement also exposes which sibling the path enters). -/
theorem walk_to_findNode [DecidableEq I] [Inhabited I]
    (D : List (DocumentDetails I)) :
    ∀ m : Nat,
      (∀ n : InvertedIndexNode I, sizeOf n ≤ m → wfNodeB D n = true →
        ∀ e ∈ preorderNode n [], ∃ rest, e.1 = n.charCode :: rest ∧
          ∃ nd, findNode n rest = some nd ∧ nd.postings ≠ [] ∧
            e.2 = nd.postings.map postingEntry) ∧
      (∀ cs : List (InvertedIndexNode I), sizeOf cs ≤ m →
        wfForestB D cs = true →
        ∀ e ∈ preorderForest cs [], ∃ k ∈ cs, ∃ rest,
          e.1 = k.charCode :: rest ∧
          ∃ nd, findNode k rest = some nd ∧ nd.postings ≠ [] ∧
            e.2 = nd.postings.map postingEntry) := by
  intro m
  induction m with
  | zero =>
      constructor
      · intro n hn
        exfalso
        cases n with
        | mk c cs ps => simp at hn
      · intro cs hcs
        exfalso
        cases cs with
        | nil => simp at hcs
        | cons k ks => simp at hcs
  | succ m ih =>
      obtain ⟨ihN, ihF⟩ := ih
      constructor
      · intro n hsz hwf e he
        cases n with
        | mk c cs ps =>
          have hps1 : 1 ≤ sizeOf ps := by
            cases ps with
            | nil => simp
            | cons p q => simp; omega
          have hszcs : sizeOf cs ≤ m := by
            simp only [InvertedIndexNode.mk.sizeOf_spec] at hsz
            omega
          rcases (wfNodeB_iff D c cs ps).1 hwf with ⟨-, h2, -, -, h5⟩
          have hforest : e ∈ preorderForest cs ([] ++ [c]) →
              ∃ rest, e.1 = (InvertedIndexNode.mk c cs ps).charCode :: rest ∧
              ∃ nd, findNode (InvertedIndexNode.mk c cs ps) rest = some nd ∧
                nd.postings ≠ [] ∧ e.2 = nd.postings.map postingEntry := by
            intro hin
            rw [List.nil_append, preorderForest_shift cs [c]] at hin
            rcases List.mem_map.1 hin with ⟨e', he', heq⟩
            rcases ihF cs hszcs h5 e' he' with
              ⟨k, hkmem, rest', hrest', nd, hfind, hps, hsnd⟩
            refine ⟨e'.1, ?_, nd, ?_, hps, ?_⟩
            · rw [← heq]
              simp
            · rw [hrest']
              have hfc : findNode (InvertedIndexNode.mk c cs ps)
                  (k.charCode :: rest') = findNode k rest' := by
                rw [findNode]
                simp only [InvertedIndexNode.children_mk]
                rw [find_first_of_nodup cs k hkmem h2]
              rw [hfc]
              exact hfind
            · rw [← heq]
              exact hsnd
          cases ps with
          | nil =>
              rw [preorderNode_nilps] at he
              exact hforest he
          | cons p ps' =>
              rw [preorderNode_consps] at he
              rcases List.mem_cons.1 he with hself | hrest
              · subst hself
                exact ⟨[], by simp, .mk c cs (p :: ps'), rfl, by simp, rfl⟩
              · exact hforest hrest
      · intro cs hsz hwf e he
        cases cs with
        | nil => simp at he
        | cons k ks =>
            have hk1 : 1 ≤ sizeOf k := by
              cases k with
              | mk c cs2 ps2 => simp; omega
            have hks1 : 1 ≤ sizeOf ks := by
              cases ks with
              | nil => simp
              | cons a b => simp; omega
            have hszk : sizeOf k ≤ m := by
              simp only [List.cons.sizeOf_spec] at hsz
              omega
            have hszks : sizeOf ks ≤ m := by
              simp only [List.cons.sizeOf_spec] at hsz
              omega
            rw [wfForestB_cons, Bool.and_eq_true] at hwf
            rw [preorderForest_cons, List.mem_append] at he
            rcases he with hek | heks
            · rcases ihN k hszk hwf.1 e hek with ⟨rest, hr, nd, hf, hp, hs⟩
              exact ⟨k, List.mem_cons_self k ks, rest, hr, nd, hf, hp, hs⟩
            · rcases ihF ks hszks hwf.2 e heks with
                ⟨k', hk', rest, hr, nd, hf, hp, hs⟩
              exact ⟨k', List.mem_cons_of_mem k hk', rest, hr, nd, hf, hp, hs⟩

/-- Conversely, every posting-carrying node reached by the walk-down search
contributes its path and linked posting projection to the canonical walk. -/
theorem walk_of_findNode [Inhabited I] :
    ∀ (rest : List Nat) (n nd : InvertedIndexNode I),
      findNode n rest = some nd → nd.postings ≠ [] →
      (n.charCode :: rest, nd.postings.map postingEntry) ∈
        preorderNode n [] := by
  intro rest
  induction rest with
  | nil =>
      intro n nd hfind hps
      rw [findNode] at hfind
      cases hfind
      cases n with
      | mk c cs ps =>
        cases ps with
        | nil => exact absurd rfl hps
        | cons p ps' =>
            rw [preorderNode_consps]
            simp
  | cons c2 r2 ih =>
      intro n nd hfind hps
      rw [findNode] at hfind
      cases hw : n.children.find? (fun w => w.charCode = c2) with
      | none => rw [hw] at hfind; cases hfind
      | some w =>
          rw [hw] at hfind
          have hwc : w.charCode = c2 := by
            have := List.find?_some hw
            simpa using this
          have hwmem : w ∈ n.children := List.mem_of_find?_eq_some hw
          have hsub := ih w nd hfind hps
          rw [hwc] at hsub
          cases n with
          | mk c cs ps =>
            have hf0 : (c2 :: r2, nd.postings.map postingEntry) ∈
                preorderForest cs [] :=
              (preorderForest_mem cs [] _).2 ⟨w, hwmem, hsub⟩
            have hshift : (c :: c2 :: r2, nd.postings.map postingEntry) ∈
                preorderForest cs [c] := by
              rw [preorderForest_shift cs [c]]
              exact List.mem_map.2 ⟨(c2 :: r2, nd.postings.map postingEntry),
                hf0, rfl⟩
            cases ps with
            | nil =>
                rw [preorderNode_nilps]
                simpa using hshift
            | cons p ps' =>
                rw [preorderNode_consps]
                simp only [List.nil_append]
                exact List.mem_cons_of_mem _ hshift

/-- Terms of a well-formed index, with truncation dropped: the reversed list
of canonical-walk paths. -/
theorem toSerializable_terms_wf [DecidableEq I] [Inhabited I] (idx : Index I F)
    (h : wfIndexB idx = true) :
    (toSerializable idx).terms =
      ((preorderForest idx.root.children []).map (fun e => e.1)).reverse := by
  rcases (wfIndexB_iff idx).1 h with ⟨-, -, -, -, hcf⟩
  have hcodes : ∀ e ∈ preorderForest idx.root.children [],
      toCharCodes e.1 = e.1 := by
    intro e he
    exact toCharCodes_eq_self e.1
      ((preorder_codes_lt_ind idx.documents (sizeOf idx.root.children)).2
        idx.root.children le_rfl hcf [] (by intro x hx; cases hx) e he)
  obtain ⟨ht, -⟩ := toSerializable_terms_postings idx
  rw [ht, List.map_congr_left (fun e he => hcodes e he)]

/-- A pair in the zip of two lists sits at one common index of both. -/
theorem zip_mem_index {α β : Type} :
    ∀ (l1 : List α) (l2 : List β) (a : α) (b : β),
      (a, b) ∈ l1.zip l2 →
      ∃ i, l1.get? i = some a ∧ l2.get? i = some b := by
  intro l1
  induction l1 with
  | nil => intro l2 a b hmem; simp at hmem
  | cons x xs ih =>
      intro l2 a b hmem
      cases l2 with
      | nil => simp at hmem
      | cons y ys =>
          rw [List.zip_cons_cons, List.mem_cons] at hmem
          rcases hmem with heq | hmem
          · refine ⟨0, ?_, ?_⟩ <;> simp_all
          · rcases ih ys a b hmem with ⟨i, h1, h2⟩
            exact ⟨i + 1, by simpa using h1, by simpa using h2⟩

/-- Folding cons over a list (the prepend-only linked-list build) reverses
it. -/
theorem foldl_prepend_reverse {α : Type} :
    ∀ (l acc : List α), List.foldl (fun r x => x :: r) acc l =
      l.reverse ++ acc := by
  intro l
  induction l with
  | nil => intro acc; simp
  | cons x xs ih =>
      intro acc
      rw [List.foldl_cons, ih, List.reverse_cons]
      simp

/-- Claim C8, counterexample: the concrete well-formed index whose single term
is the one-code path `[0]` (a non-root node carrying char code zero, as arises
from indexing a term containing the NUL character) emits a term in which the
code zero appears — so zero, the root's sentinel value, can appear inside
emitted terms, even though the root's own code is never part of any term. -/
theorem zero_code_in_terms :
    wfIndexB exIdxZero = true ∧
    (toSerializable exIdxZero).terms = [[0]] ∧
    (0 : Nat) ∈ ([0] : List Nat) := by
  refine ⟨rfl, rfl, ?_⟩
  decide

/-- Claim C8, amended: for every well-formed index, a string belongs to the
emitted `terms` exactly when it is the concatenation of the char codes along
the path from the root (excluded) to some node (included) that carries at
least one posting; in particular the root's own sentinel code is never part of
any term (every term is a path strictly below the root), though the code value
zero itself may appear when a non-root node carries it. -/
theorem terms_are_trie_paths [DecidableEq I] [Inhabited I] (idx : Index I F)
    (h : wfIndexB idx = true) (t : List Nat) :
    t ∈ (toSerializable idx).terms ↔
      ∃ nd, findNode idx.root t = some nd ∧ nd.postings ≠ [] := by
  rcases (wfIndexB_iff idx).1 h with ⟨-, hrp, -, hcn, hcf⟩
  rw [toSerializable_terms_wf idx h, List.mem_reverse, List.mem_map]
  constructor
  · rintro ⟨e, he, heq⟩
    rcases (walk_to_findNode idx.documents (sizeOf idx.root.children)).2
        idx.root.children le_rfl hcf e he with
      ⟨k, hkmem, rest, hrest, nd, hfind, hps, -⟩
    refine ⟨nd, ?_, hps⟩
    rw [← heq, hrest]
    have hfc : findNode idx.root (k.charCode :: rest) = findNode k rest := by
      rw [findNode]
      rw [find_first_of_nodup idx.root.children k hkmem hcn]
    rw [hfc]
    exact hfind
  · rintro ⟨nd, hfind, hps⟩
    cases t with
    | nil =>
        rw [findNode] at hfind
        cases hfind
        exact absurd hrp hps
    | cons c2 r2 =>
        rw [findNode] at hfind
        cases hw : idx.root.children.find? (fun w => w.charCode = c2) with
        | none => rw [hw] at hfind; cases hfind
        | some w =>
            rw [hw] at hfind
            have hwc : w.charCode = c2 := by
              have := List.find?_some hw
              simpa using this
            have hwmem : w ∈ idx.root.children :=
              List.mem_of_find?_eq_some hw
            have hsub := walk_of_findNode r2 w nd hfind hps
            rw [hwc] at hsub
            exact ⟨(c2 :: r2, nd.postings.map postingEntry),
              (preorderForest_mem idx.root.children [] _).2 ⟨w, hwmem, hsub⟩,
              rfl⟩

/-- Witness for the amended claim C8 at the concrete two-term index: the term
`[97, 98]` is emitted and indeed names the posting-carrying node reached by
walking `a`, `b` from the root; the term `[99]` is not emitted and indeed
names no posting-carrying node. -/
theorem terms_are_trie_paths_witness :
    ([97, 98] ∈ (toSerializable exIdx).terms ↔
      ∃ nd, findNode exIdx.root [97, 98] = some nd ∧ nd.postings ≠ []) ∧
    ([99] ∈ (toSerializable exIdx).terms ↔
      ∃ nd, findNode exIdx.root [99] = some nd ∧ nd.postings ≠ []) :=
  ⟨terms_are_trie_paths exIdx (by rfl) [97, 98],
    terms_are_trie_paths exIdx (by rfl) [99]⟩

/-- Claim C6: for every well-formed index and every trie node (reached by the
code path `t`) whose posting list was built by adding the pointers of `adds`
in order through the collaborator's posting primitive (which links each new
posting at the front), the postings array paired with the emitted term `t`
lists the pairs in exactly the order the postings were originally added. -/
theorem postings_in_insertion_order [DecidableEq I] [Inhabited I]
    (idx : Index I F) (h : wfIndexB idx = true) (t : List Nat)
    (nd : InvertedIndexNode I) (adds : List (DocumentPointer I))
    (hfind : findNode idx.root t = some nd)
    (hbuilt : nd.postings = List.foldl (fun r x => x :: r) [] adds)
    (hne : adds ≠ []) :
    ∃ i, (toSerializable idx).terms.get? i = some t ∧
      (toSerializable idx).postings.get? i =
        some (adds.map postingEntry) := by
  rcases (wfIndexB_iff idx).1 h with ⟨-, hrp, -, -, -⟩
  have hps : nd.postings = adds.reverse := by
    rw [hbuilt, foldl_prepend_reverse]
    simp
  have hpne : nd.postings ≠ [] := by
    rw [hps]
    simpa using hne
  have hmem : (t, nd.postings.map postingEntry) ∈
      preorderForest idx.root.children [] := by
    cases t with
    | nil =>
        rw [findNode] at hfind
        cases hfind
        exact absurd hrp hpne
    | cons c2 r2 =>
        rw [findNode] at hfind
        cases hw : idx.root.children.find? (fun w => w.charCode = c2) with
        | none => rw [hw] at hfind; cases hfind
        | some w =>
            rw [hw] at hfind
            have hwc : w.charCode = c2 := by
              have := List.find?_some hw
              simpa using this
            have hwmem := List.mem_of_find?_eq_some hw
            have hsub := walk_of_findNode r2 w nd hfind hpne
            rw [hwc] at hsub
            exact (preorderForest_mem idx.root.children [] _).2
              ⟨w, hwmem, hsub⟩
  have hzmem : (t, (nd.postings.map postingEntry).reverse) ∈
      (toSerializable idx).terms.zip (toSerializable idx).postings := by
    rw [toSerializable_zip idx h, List.mem_reverse]
    exact List.mem_map.2 ⟨(t, nd.postings.map postingEntry), hmem, rfl⟩
  rcases zip_mem_index _ _ _ _ hzmem with ⟨i, h1, h2⟩
  have hback : (nd.postings.map postingEntry).reverse =
      adds.map postingEntry := by
    rw [hps]
    simp
  rw [hback] at h2
  exact ⟨i, h1, h2⟩

/-- Witness for claim C6 at the concrete two-term index: the node reached by
the path `[97]` carries the posting list built from the one-element addition
sequence, and the paired postings array lists it in that order. -/
theorem postings_in_insertion_order_witness :
    ∃ i, (toSerializable exIdx).terms.get? i = some [97] ∧
      (toSerializable exIdx).postings.get? i =
        some (([⟨some exDoc, [1]⟩] :
          List (DocumentPointer Nat)).map postingEntry) :=
  postings_in_insertion_order exIdx (by rfl) [97]
    (.mk 97 [.mk 98 [] [⟨some exDoc, [2]⟩]] [⟨some exDoc, [1]⟩])
    [⟨some exDoc, [1]⟩] (by rfl) (by rfl) (by simp)

/-- Claim C9: flattening an index with zero documents and a childless root
yields empty `docIds`, `docFieldLengths`, `terms` and `postings` arrays with
the source's field metadata copied verbatim, and rebuilding from that empty
flat table yields an index with an empty document map and a root with no
children and no postings. -/
theorem empty_index_round_trip (fl : List F) :
    toSerializable (⟨[], .mk 0 [] [], fl⟩ : Index Nat F) =
      ⟨[], [], [], [], fl⟩ ∧
    fromSerializable (⟨[], [], [], [], fl⟩ : SerializableIndex Nat F) =
      ⟨[], .mk 0 [] [], fl⟩ :=
  ⟨rfl, rfl⟩

/-- Claim C3, counterexample: on the flat table with `docIds = [1, 1]`,
`fromSerializable` does not fail; it silently overwrites, collapsing the
rebuilt document map to a single entry (the later field lengths win), so the
claimed duplicate-identifier rejection does not happen in the code. -/
theorem fromSerializable_duplicate_collapses :
    (fromSerializable (⟨[1, 1], [[1], [2]], [], [], []⟩ :
        SerializableIndex Nat Nat)).documents = [⟨1, [2]⟩] ∧
    (fromSerializable (⟨[1, 1], [[1], [2]], [], [], []⟩ :
        SerializableIndex Nat Nat)).documents.length ≠ 2 := by
  constructor
  · rfl
  · simp [fromSerializable, mapSet, mapGet]

/-- Claim C3, amended: `fromSerializable` performs no duplicate check; a flat
table listing the same identifier twice is rebuilt without error, the second
occurrence silently overwriting the first (last value wins, at the first
occurrence's position), so the document map collapses to one entry. -/
theorem fromSerializable_duplicate_last_wins [DecidableEq I] (a : I)
    (f1 f2 : List Nat) (fl : List F) :
    (fromSerializable (⟨[a, a], [f1, f2], [], [], fl⟩ :
        SerializableIndex I F)).documents = [⟨a, f2⟩] := by
  simp [fromSerializable, mapSet]

/-- Claim C4, counterexample: on a flat table whose single posting names
document id 1 while `docIds` is empty, `fromSerializable` does not reject; it
constructs an index whose posting carries an absent (`undefined`, modelled
`none`) details reference, because the runtime `documents.get(p[0])!` lookup
silently yields `undefined`. -/
theorem fromSerializable_dangling_constructs :
    fromSerializable (⟨[], [], [[97]], [[(1, [2])]], []⟩ :
        SerializableIndex Nat Nat) =
      ⟨[], .mk 0 [.mk 97 [] [⟨none, [2]⟩]] [], []⟩ := rfl

/-- Claim C4, amended: `fromSerializable` performs no dangling-reference
validation; a posting naming an identifier absent from `docIds` is rebuilt
without error into a pointer whose details reference is absent (`none`). -/
theorem fromSerializable_dangling_none_details [DecidableEq I] (c : Nat)
    (i : I) (tf : List Nat) (fl : List F) :
    fromSerializable (⟨[], [], [[c]], [[(i, tf)]], fl⟩ :
        SerializableIndex I F) =
      ⟨[], .mk 0 [.mk c [] [⟨none, tf⟩]] [], fl⟩ := by
  simp [fromSerializable, addTermPostings, findInvertedIndexChildNodeByCharCode,
    createInvertedIndexNodes, addSerializedPostings, addInvertedIndexPosting,
    addInvertedIndexChildNode, createInvertedIndexNode, mapGet]

/-- Claim C5, counterexample: rebuilding the flat table with terms `[97]` then
`[98]` yields root children in linked order `[98, 97]`, not `[97, 98]`: the
collaborator's `addInvertedIndexChildNode` links a new node at the front of
the sibling chain, so nodes are not appended to its end as claimed; likewise
the two postings of one term end up linked in reverse array order. -/
theorem fromSerializable_prepends_not_appends :
    ((fromSerializable (⟨[1], [[1]], [[97], [98]],
        [[(1, [1])], [(1, [2])]], []⟩ :
        SerializableIndex Nat Nat)).root.children.map
          InvertedIndexNode.charCode = [98, 97] ∧
      (fromSerializable (⟨[1], [[1]], [[97], [98]],
        [[(1, [1])], [(1, [2])]], []⟩ :
        SerializableIndex Nat Nat)).root.children.map
          InvertedIndexNode.charCode ≠ [97, 98]) ∧
    (fromSerializable (⟨[1], [[1]], [[97]], [[(1, [1]), (1, [2])]], []⟩ :
        SerializableIndex Nat Nat)).root =
      .mk 0 [.mk 97 [] [⟨some ⟨1, [1]⟩, [2]⟩, ⟨some ⟨1, [1]⟩, [1]⟩]] [] := by
  refine ⟨⟨rfl, ?_⟩, rfl⟩
  decide

/-- Claim C5, amended: during `fromSerializable` every newly created trie node
is attached at the front of its parent's sibling list (the collaborator's
`addInvertedIndexChildNode` prepends), and the postings taken from
`postings[i]` are each linked at the front of the terminal node's posting
list, so the final linked posting list is the reverse of the array order. -/
theorem fromSerializable_prepend_semantics [DecidableEq I] (i : I)
    (f tfa tfb tf1 tf2 : List Nat) (fl : List F) (a b : Nat) (hab : a ≠ b) :
    (fromSerializable (⟨[i], [f], [[a], [b]],
        [[(i, tfa)], [(i, tfb)]], fl⟩ : SerializableIndex I F)).root =
      .mk 0 [.mk b [] [⟨some ⟨i, f⟩, tfb⟩], .mk a [] [⟨some ⟨i, f⟩, tfa⟩]] [] ∧
    (fromSerializable (⟨[i], [f], [[a]], [[(i, tf1), (i, tf2)]], fl⟩ :
        SerializableIndex I F)).root =
      .mk 0 [.mk a [] [⟨some ⟨i, f⟩, tf2⟩, ⟨some ⟨i, f⟩, tf1⟩]] [] := by
  constructor
  · simp [fromSerializable, mapSet, mapGet, addTermPostings,
      findInvertedIndexChildNodeByCharCode, createInvertedIndexNodes,
      addSerializedPostings, addInvertedIndexPosting,
      addInvertedIndexChildNode, createInvertedIndexNode, hab]
  · simp [fromSerializable, mapSet, mapGet, addTermPostings,
      findInvertedIndexChildNodeByCharCode, createInvertedIndexNodes,
      addSerializedPostings, addInvertedIndexPosting,
      addInvertedIndexChildNode, createInvertedIndexNode]

/-- Witness for the amended claim C5 at a concrete input. -/
theorem fromSerializable_prepend_semantics_witness :
    (fromSerializable (⟨[1], [[1]], [[97], [98]],
        [[(1, [3])], [(1, [4])]], [5]⟩ : SerializableIndex Nat Nat)).root =
      .mk 0 [.mk 98 [] [⟨some ⟨1, [1]⟩, [4]⟩], .mk 97 [] [⟨some ⟨1, [1]⟩, [3]⟩]]
        [] ∧
    (fromSerializable (⟨[1], [[1]], [[97]], [[(1, [3]), (1, [4])]], [5]⟩ :
        SerializableIndex Nat Nat)).root =
      .mk 0 [.mk 97 [] [⟨some ⟨1, [1]⟩, [4]⟩, ⟨some ⟨1, [1]⟩, [3]⟩]] [] :=
  fromSerializable_prepend_semantics 1 [1] [3] [4] [3] [4] [5] 97 98
    (by decide)

end NdxSerializable
